import Mathlib

/-!
Shallow embedding of the Monte-Carlo-Tree-Search implementation in
src/P2/src/mcts_modified.py (and, for the one claim that cites it, the draft
src/P2/src/mcts_vanilla.py).  The game engine (class `Board` of `p2_t3.py`) is
an out-of-scope collaborator and appears as an abstract interface; the node
class `MCTSNode` (file `mcts_node.py`, not included under src/) is modelled
from the spec's section 4.1 contract.  The mutable Python node graph becomes a
store of nodes indexed by position: the root is index 0 and children are
appended after their parents, so a child's index strictly exceeds its
parent's.  Python's global random generator becomes an explicit stream of
naturals threaded through the simulator.  Floating-point arithmetic in `ucb`
is idealised as extended-real arithmetic; the win-rate floats of
`get_best_action` are exact rationals.
-/

namespace MCTS

/-- Pseudo-random number source: the Python global `random` generator is
modelled as an infinite stream of naturals. -/
def Rng : Type := Nat → Nat

/-- Draw one natural from the stream, returning the advanced stream. -/
def drawNat (r : Rng) : Nat × Rng := (r 0, fun k => r (k + 1))

/-- Python `random.choice(l)`: pick an element of `l` driven by the stream;
`none` models the `IndexError` that `choice` raises on an empty sequence. -/
def chooseRand {α : Type} (l : List α) (r : Rng) : Option α × Rng :=
  let p := drawNat r
  (l[p.1 % l.length]?, p.2)

/-- Python `random.random() < 0.8` in `rollout` (`exploration_factor = 0.8`):
modelled as a Bernoulli draw from the stream, true on four of five residues. -/
def randBool08 (r : Rng) : Bool × Rng :=
  let p := drawNat r
  (decide (p.1 % 5 < 4), p.2)

/-- Modelled from the spec: the node class `MCTSNode` (file `mcts_node.py` of
this repository, not included under src/), fields per the spec's section 4.1
and section 3 data model.  `child_nodes` is the insertion-ordered
action-to-child mapping (Python dicts preserve insertion order); children are
identified by their index in the node store. -/
structure NodeRec (A : Type) where
  parent : Option Nat
  parent_action : Option A
  child_nodes : List (A × Nat)
  untried_actions : List A
  visits : Nat
  wins : Nat
deriving DecidableEq

instance {A : Type} : Inhabited (NodeRec A) :=
  ⟨⟨none, none, [], [], 0, 0⟩⟩

/-- The search tree: a store of nodes.  Index 0 is the root; `expand_leaf`
appends each new child after its parent. -/
abbrev Tree (A : Type) : Type := List (NodeRec A)

/-- Read a node of the store (out-of-range reads, which never happen on the
trees this code builds, give the default all-empty node). -/
def getNode {A : Type} (t : Tree A) (i : Nat) : NodeRec A := t.getD i default

/-- Replace a node of the store. -/
def setNode {A : Type} (t : Tree A) (i : Nat) (n : NodeRec A) : Tree A := t.set i n

/-- Modelled from the spec: `MCTSNode.__init__` (spec section 4.1 contract):
zeroed statistics, the given parent and producing action, the supplied legal
actions as the untried list, no children. -/
def createNode {A : Type} (parent : Option Nat) (parent_action : Option A)
    (action_list : List A) : NodeRec A :=
  ⟨parent, parent_action, [], action_list, 0, 0⟩

/-- The abstract game-engine interface of spec section 6 (the `Board` class of
`p2_t3.py` is an out-of-scope collaborator).  `points_values` is `none` where
the engine defines no outcome (non-terminal states). -/
structure Engine (S A : Type) where
  legal_actions : S → List A
  next_state : S → A → S
  is_ended : S → Bool
  current_player : S → Nat
  points_values : S → Option (Nat → Int)

/-- Iteration budget constant `num_nodes = 750` of mcts_modified.py.  The
control loop below takes the budget as an argument (the spec's section 6
configuration surface); this value is the repository default. -/
def num_nodes : Nat := 750

/-- Exploration constant `explore_faction = 2.` of mcts_modified.py. -/
noncomputable def explore_faction : Real := 2

/-- The helper `is_win` of mcts_modified.py: read the terminal outcome table
for the given player.  The Python function asserts that `points_values` is not
`None`; the failed assertion is modelled by `none`. -/
def is_win {S A : Type} (eng : Engine S A) (state : S) (identity_of_bot : Nat) :
    Option Bool :=
  (eng.points_values state).map (fun outcome => outcome identity_of_bot == 1)

/-- Boolean reading of `is_win` as used inside `testaction` and `rollout`,
where the call is guarded by `board.is_ended(...)`.  A missing outcome table
(a failed assertion in Python) is read as `false`; no theorem below depends on
the value taken on that branch. -/
def is_winB {S A : Type} (eng : Engine S A) (state : S) (bot : Nat) : Bool :=
  (is_win eng state bot).getD false

/-- The `ucb` function of mcts_modified.py.  Floats are idealised as reals,
`float("inf")` as the top of `EReal`; `node.parent.visits` is read through the
node's parent pointer.  (Python raises when `parent` is `None`; `ucb` is only
applied to children, whose parent pointer is set, so that branch harmlessly
reads index 0 here.) -/
noncomputable def ucb {A : Type} (t : Tree A) (node : NodeRec A)
    (is_opponent : Bool) : EReal :=
  if node.visits = 0 then ⊤
  else
    let first_half : Real := (node.wins : Real) / (node.visits : Real)
    let v : Real := Real.log ((getNode t (node.parent.getD 0)).visits : Real)
    let second_half : Real := explore_faction * Real.sqrt (v / (node.visits : Real))
    let ucb_value : Real := first_half + second_half
    if is_opponent then ((1 - ucb_value : Real) : EReal) else (ucb_value : EReal)

/-- The child-selection scan of `traverse_nodes`: starting from
`best_node = None` and `best_ucb_value = float('-inf')`, capture the current
child whenever its value compares `>=` to the captured best — so equal values
replace, and ties keep the last-seen maximum. -/
def scanGE {α V : Type} [LinearOrder V] (f : α → V) :
    List α → Option α → V → Option α
  | [], best_node, _ => best_node
  | c :: rest, best_node, best_ucb_value =>
    if f c ≥ best_ucb_value then scanGE f rest (some c) (f c)
    else scanGE f rest best_node best_ucb_value

/-- One selection step of `traverse_nodes`: scan the children of the current
node (in mapping order) for the best UCB value, starting from minus infinity. -/
noncomputable def selectChild {A : Type} (t : Tree A) (children : List (A × Nat))
    (is_opponent : Bool) : Option Nat :=
  scanGE (fun cid => ucb t (getNode t cid) is_opponent) (children.map Prod.snd) none ⊥

/-- The selection loop `traverse_nodes` of mcts_modified.py.  The explicit
`fuel` makes the loop structural: every step moves to a child, and in every
tree this code builds a child's index strictly exceeds its parent's, so the
fuel `t.length + 1` supplied by `traverse_nodes` cannot be exhausted before
the loop's own exit conditions fire.  (The `none` branch of the scan is dead:
the scan of a non-empty child list always captures a child, every value being
`>= -inf`.) -/
noncomputable def traverseGo {S A : Type} (eng : Engine S A) (t : Tree A)
    (bot_identity : Nat) : Nat → Nat → S → Nat × S
  | 0, i, state => (i, state)
  | fuel + 1, i, state =>
    let node := getNode t i
    if 0 < node.child_nodes.length ∧ node.untried_actions.length = 0 ∧
        eng.is_ended state = false then
      let is_opponent : Bool := !(eng.current_player state == bot_identity)
      match selectChild t node.child_nodes is_opponent with
      | some c =>
        let state2 :=
          match (getNode t c).parent_action with
          | some a => eng.next_state state a
          | none => state
        traverseGo eng t bot_identity fuel c state2
      | none => (i, state)
    else (i, state)

/-- Entry point of the selection phase, fuel instantiated as described above. -/
noncomputable def traverse_nodes {S A : Type} (eng : Engine S A) (t : Tree A)
    (i : Nat) (state : S) (bot_identity : Nat) : Nat × S :=
  traverseGo eng t bot_identity (t.length + 1) i state

/-- The `expand_leaf` function of mcts_modified.py: pop the first untried
action, compute the successor state, create the child node (registered under
the action in the parent's mapping and stored at the next free index), and
return — exactly as the Python `return node, state` does — the input node
index together with the successor state. -/
def expand_leaf {S A : Type} (eng : Engine S A) (t : Tree A) (i : Nat) (state : S) :
    Tree A × Nat × S :=
  let node := getNode t i
  match node.untried_actions with
  | [] => (t, i, state)
  | action :: rest =>
    let state2 := eng.next_state state action
    let n := createNode (some i) (some action) (eng.legal_actions state2)
    let t2 := setNode t i
      { node with untried_actions := rest,
                  child_nodes := node.child_nodes ++ [(action, t.length)] }
    (t2 ++ [n], i, state2)

/-- Result of the probe `testaction`: an integer score, or the two failure
modes the Python can hit (an empty `random.choice`, which raises there), or
fuel exhaustion of the embedding (proved unreachable below). -/
inductive TRes where
  | val : Int → TRes
  | emptyDraw : TRes
  | fuelOut : TRes
deriving DecidableEq

/-- The recursive probe `testaction` of mcts_modified.py.  `fuel` makes the
recursion structural; the `depth > 19` cap means a fuel of 21 always suffices
(proved below), and 21 is what `rollout` supplies at its call site. -/
def testaction {S A : Type} (eng : Engine S A) (bot_identity : Nat) :
    Nat → S → A → Nat → Rng → TRes × Rng
  | 0, _, _, _, rng => (.fuelOut, rng)
  | fuel + 1, state, action, depth, rng =>
    let test_state := eng.next_state state action
    if eng.is_ended test_state = true ∨ 19 < depth then
      if eng.is_ended test_state = true ∧ is_winB eng test_state bot_identity = true then
        (.val (-(depth : Int)), rng)
      else (.val (depth : Int), rng)
    else
      match chooseRand (eng.legal_actions test_state) rng with
      | (none, rng2) => (.emptyDraw, rng2)
      | (some selected_action, rng2) =>
        testaction eng bot_identity fuel test_state selected_action (depth + 1) rng2

/-- Result of evaluating all `min(...)` keys in `rollout`'s 20% branch. -/
inductive TVRes (A : Type) where
  | vals : List (A × Int) → TVRes A
  | emptyDraw : TVRes A
  | fuelOut : TVRes A

/-- Evaluation of the keys of `min(actions, key=lambda n: testaction(...))` in
`rollout`: one `testaction` run per action, in list order, threading the
random stream exactly as Python's global generator is consumed. -/
def testVals {S A : Type} (eng : Engine S A) (bot : Nat) (state : S) :
    List A → Rng → TVRes A × Rng
  | [], rng => (.vals [], rng)
  | a :: rest, rng =>
    match testaction eng bot 21 state a 0 rng with
    | (.val z, rng2) =>
      match testVals eng bot state rest rng2 with
      | (.vals l, rng3) => (.vals ((a, z) :: l), rng3)
      | (.emptyDraw, rng3) => (.emptyDraw, rng3)
      | (.fuelOut, rng3) => (.fuelOut, rng3)
    | (.emptyDraw, rng2) => (.emptyDraw, rng2)
    | (.fuelOut, rng2) => (.fuelOut, rng2)

/-- Python `min` over key-scored elements: strict comparison, so the first
element attaining the minimal key is kept. -/
def argminGo {A : Type} (a : A) (z : Int) : List (A × Int) → A
  | [] => a
  | (b, w) :: rest => if w < z then argminGo b w rest else argminGo a z rest

/-- Python `min(actions, key=...)` applied to the scored list; `none` models
the `ValueError` Python raises on an empty sequence (dead here: the scored
list comes from a non-empty action list). -/
def argminFirst {A : Type} : List (A × Int) → Option A
  | [] => none
  | (a, z) :: rest => some (argminGo a z rest)

/-- Result of a rollout: a final state, or an empty `random.choice` (which
raises in Python), or fuel exhaustion of the embedding's loop bound. -/
inductive RollR (S : Type) where
  | ok : S → RollR S
  | emptyDraw : RollR S
  | fuelOut : RollR S

/-- The semi-random `rollout` loop of mcts_modified.py.  `fuel` bounds the
number of loop cycles (the Python relies on the game being finite).  Each
cycle: immediate-win scan over the legal actions; with probability 0.8 a
uniformly random action, else the `testaction`-argmin action; then the
unconditional second random half-move (which appears once in the Python after
the if/else and is therefore spelled in both branches here); then loop. -/
def rolloutGo {S A : Type} (eng : Engine S A) (bot_identity : Nat) :
    Nat → S → Rng → RollR S × Rng
  | 0, _, rng => (.fuelOut, rng)
  | fuel + 1, state, rng =>
    if eng.is_ended state = true then (.ok state, rng)
    else
      let actions := eng.legal_actions state
      if actions.length = 0 then (.ok state, rng)
      else
        match actions.find? (fun a => eng.is_ended (eng.next_state state a)) with
        | some a => (.ok (eng.next_state state a), rng)
        | none =>
          let p := randBool08 rng
          if p.1 then
            match chooseRand actions p.2 with
            | (none, rng2) => (.emptyDraw, rng2)
            | (some selected_action, rng2) =>
              let state1 := eng.next_state state selected_action
              match chooseRand (eng.legal_actions state1) rng2 with
              | (none, rng3) => (.emptyDraw, rng3)
              | (some randomAction, rng3) =>
                rolloutGo eng bot_identity fuel (eng.next_state state1 randomAction) rng3
          else
            match testVals eng bot_identity state actions p.2 with
            | (.vals l, rng2) =>
              match argminFirst l with
              | none => (.emptyDraw, rng2)
              | some selected_action =>
                let state1 := eng.next_state state selected_action
                match chooseRand (eng.legal_actions state1) rng2 with
                | (none, rng3) => (.emptyDraw, rng3)
                | (some randomAction, rng3) =>
                  rolloutGo eng bot_identity fuel (eng.next_state state1 randomAction) rng3
            | (.emptyDraw, rng2) => (.emptyDraw, rng2)
            | (.fuelOut, rng2) => (.fuelOut, rng2)

/-- The decision scan `get_best_action` of mcts_modified.py, generalized over
the running best: iterate the root's children mapping in order; among children
with positive visits keep the first strict maximum of the win rate (Python
floats `wins / visits` are exact rationals here, `best_win_rate` starts at
`-1`). -/
def get_best_go {A : Type} : Option A → Rat → List (A × NodeRec A) → Option A
  | best_action, _, [] => best_action
  | best_action, best_win_rate, (key, child_node) :: rest =>
    if 0 < child_node.visits then
      let win_rate : Rat := (child_node.wins : Rat) / (child_node.visits : Rat)
      if best_win_rate < win_rate then get_best_go (some key) win_rate rest
      else get_best_go best_action best_win_rate rest
    else get_best_go best_action best_win_rate rest

/-- Entry point of the decision scan. -/
def get_best_action {A : Type} (children : List (A × NodeRec A)) : Option A :=
  get_best_go none (-1) children

/-- One statistics update of `backpropagate`: increment `visits`, and `wins`
when the playout was won. -/
def bump {A : Type} (n : NodeRec A) (won : Bool) : NodeRec A :=
  { n with wins := if won then n.wins + 1 else n.wins, visits := n.visits + 1 }

/-- The recursive `backpropagate` of mcts_modified.py: update the node's
statistics, stop if its parent pointer is `None`, else recurse on the parent.
`fuel` makes the parent-chain recursion structural; parents of nodes built by
this code have strictly smaller indices, so the fuel `i + 1` supplied by
`backpropagate` cannot run out before the root's `None` parent stops the
walk. -/
def backpropGo {A : Type} : Nat → Tree A → Nat → Bool → Tree A
  | 0, t, _, _ => t
  | fuel + 1, t, i, won =>
    let t2 := setNode t i (bump (getNode t i) won)
    match (getNode t i).parent with
    | none => t2
    | some p => backpropGo fuel t2 p won

/-- Entry point of backpropagation, fuel instantiated as described above. -/
def backpropagate {A : Type} (t : Tree A) (i : Nat) (won : Bool) : Tree A :=
  backpropGo (i + 1) t i won

/-- The `backpropagate` of the draft mcts_vanilla.py: it tests
`node.parent is None` BEFORE updating the statistics, so the walk returns at
the root without incrementing it. -/
def backpropGoVanilla {A : Type} : Nat → Tree A → Nat → Bool → Tree A
  | 0, t, _, _ => t
  | fuel + 1, t, i, won =>
    match (getNode t i).parent with
    | none => t
    | some p => backpropGoVanilla fuel (setNode t i (bump (getNode t i) won)) p won

/-- Entry point of the vanilla draft's backpropagation. -/
def backpropagate_vanilla {A : Type} (t : Tree A) (i : Nat) (won : Bool) : Tree A :=
  backpropGoVanilla (i + 1) t i won

/-- Failure modes of one `think` iteration: the failed assertion inside
`is_win`, or the two `rollout` failure modes. -/
inductive ThinkErr where
  | assertViolation : ThinkErr
  | rolloutEmptyDraw : ThinkErr
  | rolloutFuelOut : ThinkErr
deriving DecidableEq

/-- Root-children view used by the final decision: each key of the root's
mapping paired with the child node it references (Python's
`root_node.child_nodes.items()`). -/
def rootChildren {A : Type} (t : Tree A) : List (A × NodeRec A) :=
  (getNode t 0).child_nodes.map (fun p => (p.1, getNode t p.2))

/-- One iteration of the Controller loop in `think` of mcts_modified.py:
select from the root, expand, simulate from the expanded node's state, score,
backpropagate from the node `expand_leaf` returned (which, as `expand_leaf` is
written, is the selected node itself, not the new child). -/
noncomputable def thinkIter {S A : Type} (eng : Engine S A) (bot_identity : Nat)
    (rolloutFuel : Nat) (current_state : S) (t : Tree A) (rng : Rng) :
    Except ThinkErr (Tree A × Rng) :=
  let ls := traverse_nodes eng t 0 current_state bot_identity
  let ex := expand_leaf eng t ls.1 ls.2
  match rolloutGo eng bot_identity rolloutFuel ex.2.2 rng with
  | (.ok endState, rng2) =>
    match is_win eng endState bot_identity with
    | none => .error .assertViolation
    | some w => .ok (backpropagate ex.1 ex.2.1 w, rng2)
  | (.emptyDraw, _) => .error .rolloutEmptyDraw
  | (.fuelOut, _) => .error .rolloutFuelOut

/-- The Controller's iteration loop, counting the remaining budget down. -/
noncomputable def thinkGo {S A : Type} (eng : Engine S A) (bot_identity : Nat)
    (rolloutFuel : Nat) (current_state : S) :
    Nat → Tree A → Rng → Except ThinkErr (Tree A × Option A)
  | 0, t, _ => .ok (t, get_best_action (rootChildren t))
  | k + 1, t, rng =>
    match thinkIter eng bot_identity rolloutFuel current_state t rng with
    | .ok (t2, rng2) => thinkGo eng bot_identity rolloutFuel current_state k t2 rng2
    | .error e => .error e

/-- The Controller `think` of mcts_modified.py, also returning the final tree.
The iteration budget and the rollout loop bound are configuration arguments
(spec section 6); `num_nodes` is the repository default budget. -/
noncomputable def thinkCore {S A : Type} (eng : Engine S A) (budget rolloutFuel : Nat)
    (current_state : S) (rng : Rng) : Except ThinkErr (Tree A × Option A) :=
  let bot_identity := eng.current_player current_state
  let root := createNode (A := A) none none (eng.legal_actions current_state)
  thinkGo eng bot_identity rolloutFuel current_state budget [root] rng

/-- The Controller's external behaviour: the chosen action, `none` being
Python's silently returned `None`. -/
noncomputable def think {S A : Type} (eng : Engine S A) (budget rolloutFuel : Nat)
    (current_state : S) (rng : Rng) : Except ThinkErr (Option A) :=
  (thinkCore eng budget rolloutFuel current_state rng).map Prod.snd

/-- The win rate `child_node.wins / child_node.visits` computed by
`get_best_action`, as an exact rational. -/
def winRate {A : Type} (n : NodeRec A) : Rat := (n.wins : Rat) / (n.visits : Rat)

/-- Statistics invariant of the spec's section 3 data model: every node of the
store satisfies `wins <= visits`. -/
def statsInv {A : Type} (t : Tree A) : Prop := ∀ n ∈ t, n.wins ≤ n.visits

/-- Invariant tying the root's action bookkeeping to the legal actions of the
searched state: the store is non-empty, and every untried action and every
child key of the root is one of the root state's legal actions. -/
def RootInv {A : Type} (legal0 : List A) (t : Tree A) : Prop :=
  0 < t.length ∧ (∀ a ∈ (getNode t 0).untried_actions, a ∈ legal0) ∧
    ∀ p ∈ (getNode t 0).child_nodes, p.1 ∈ legal0

/-- All-zeroes random stream, used for concrete runs. -/
def rngZero : Rng := fun _ => 0

/-- Concrete two-state engine: state 0 has the single legal action 7 leading
to state 1, which is terminal and a win for every player. -/
def egTwo : Engine Nat Nat :=
  ⟨fun s => if s = 0 then [7] else [], fun _ _ => 1, fun s => s == 1, fun _ => 1,
    fun s => if s = 1 then some (fun _ => 1) else none⟩

/-- Concrete countdown engine: from state `s + 1` the single legal action
moves to state `s`; state 0 is terminal and a win.  Every game ends within
`s` plies and every non-terminal state has a legal action. -/
def egCountdown : Engine Nat Nat :=
  ⟨fun s => if s = 0 then [] else [s - 1], fun _ a => a, fun s => s == 0, fun _ => 1,
    fun s => if s = 0 then some (fun _ => 1) else none⟩

/-- Concrete one-node tree: a root with the single untried action 5. -/
def treeOne : Tree Nat := [⟨none, none, [], [5], 0, 0⟩]

/-- Concrete two-node chain: a root and one child reached by action 5, all
statistics zero. -/
def treeChain : Tree Nat := [⟨none, none, [(5, 1)], [], 0, 0⟩, ⟨some 0, some 5, [], [], 0, 0⟩]

/-- Concrete tree with two unvisited children of the root: both have UCB value
plus infinity, a tie. -/
def treeTie : Tree Nat :=
  [⟨none, none, [(1, 1), (2, 2)], [], 1, 0⟩, ⟨some 0, some 1, [], [], 0, 0⟩,
    ⟨some 0, some 2, [], [], 0, 0⟩]

/-- Concrete children list for the decision scan: rates 0, 1 and 1 — the
maximum is attained twice, first at key 2. -/
def childrenEg : List (Nat × NodeRec Nat) :=
  [(1, ⟨none, none, [], [], 2, 0⟩), (2, ⟨none, none, [], [], 1, 1⟩),
    (3, ⟨none, none, [], [], 1, 1⟩)]

/-- Concrete node with 2 visits and 1 win. -/
def nodeEg : NodeRec Nat := ⟨some 0, some 1, [], [], 2, 1⟩

/-- Claim C1 — `expand_leaf` on a node with a non-empty untried list pops the
first untried action, applies it, creates the child keyed by the action at the
next free index — but the triple it returns carries the INPUT node's index 0,
not the new child's index 1: the Python `return node, state` contradicts the
function's own docstring (and the spec), which promise the added child. -/
theorem expand_leaf_returns_parent :
    (expand_leaf egTwo treeOne 0 0).2.1 = 0 ∧
    getNode (expand_leaf egTwo treeOne 0 0).1 1 =
      createNode (some 0) (some 5) (egTwo.legal_actions (egTwo.next_state 0 5)) ∧
    (getNode (expand_leaf egTwo treeOne 0 0).1 0).child_nodes = [(5, 1)] ∧
    (getNode (expand_leaf egTwo treeOne 0 0).1 0).untried_actions = [] ∧
    (expand_leaf egTwo treeOne 0 0).2.2 = egTwo.next_state 0 5 := by
  decide

/-- Claim C2 — on the two-node chain, the mcts_modified `backpropagate`
increments visits and wins of the leaf AND of the root (as the claim states),
while the mcts_vanilla draft returns at the root before updating it, leaving
the root's statistics at zero. -/
theorem backpropagate_root_increment_divergence :
    (getNode (backpropagate treeChain 1 true) 1).visits = 1 ∧
    (getNode (backpropagate treeChain 1 true) 1).wins = 1 ∧
    (getNode (backpropagate treeChain 1 true) 0).visits = 1 ∧
    (getNode (backpropagate treeChain 1 true) 0).wins = 1 ∧
    (getNode (backpropagate_vanilla treeChain 1 true) 1).visits = 1 ∧
    (getNode (backpropagate_vanilla treeChain 1 true) 1).wins = 1 ∧
    (getNode (backpropagate_vanilla treeChain 1 true) 0).visits = 0 ∧
    (getNode (backpropagate_vanilla treeChain 1 true) 0).wins = 0 := by
  decide

/-- Claim C6 — perspective inversion of `ucb`: for every node with positive
visits (the zero-visit branch returns plus infinity for both perspectives
instead), the opponent-perspective value is one minus the bot-perspective
value, whatever the parent's statistics are. -/
theorem ucb_perspective_inversion {A : Type} (t : Tree A) (n : NodeRec A)
    (h : 0 < n.visits) : ucb t n true = 1 - ucb t n false := by
  have hne : ¬n.visits = 0 := by omega
  simp only [ucb, if_neg hne, if_true, if_false, Bool.false_eq_true, ite_false, ite_true]
  rw [EReal.coe_sub, EReal.coe_one]

/-- Witness for C6 at the concrete node with 2 visits and 1 win. -/
theorem ucb_perspective_inversion_witness :
    0 < nodeEg.visits ∧ ucb ([] : Tree Nat) nodeEg true = 1 - ucb ([] : Tree Nat) nodeEg false :=
  ⟨by decide, ucb_perspective_inversion ([] : Tree Nat) nodeEg (by decide)⟩

/-- Characterization of the `>=` scan: either nothing reached the running
best and the initial capture is returned, or the returned element is the
LAST element attaining the maximum of the scanned values (everything compares
`<=` to it and everything after it compares `<`). -/
theorem scanGE_spec {α V : Type} [LinearOrder V] (f : α → V) (l : List α) :
    ∀ (b : Option α) (v : V),
      (scanGE f l b v = b ∧ ∀ c ∈ l, f c < v) ∨
      (∃ l1 c l2, l = l1 ++ c :: l2 ∧ scanGE f l b v = some c ∧ v ≤ f c ∧
        (∀ d ∈ l, f d ≤ f c) ∧ ∀ d ∈ l2, f d < f c) := by
  induction l with
  | nil => intro b v; exact Or.inl ⟨rfl, by simp⟩
  | cons c0 rest ih =>
    intro b v
    by_cases h : f c0 ≥ v
    · rw [scanGE, if_pos h]
      rcases ih (some c0) (f c0) with ⟨heq, hall⟩ |
        ⟨l1, c, l2, hsplit, heq, hvle, hall, hstrict⟩
      · refine Or.inr ⟨[], c0, rest, rfl, heq, h, ?_, hall⟩
        intro d hd
        rcases List.mem_cons.mp hd with rfl | hd
        · exact le_refl _
        · exact le_of_lt (hall d hd)
      · refine Or.inr ⟨c0 :: l1, c, l2, by rw [hsplit]; rfl, heq, le_trans h hvle, ?_, hstrict⟩
        intro d hd
        rcases List.mem_cons.mp hd with rfl | hd
        · exact hvle
        · exact hall d hd
    · rw [scanGE, if_neg h]
      rcases ih b v with ⟨heq, hall⟩ | ⟨l1, c, l2, hsplit, heq, hvle, hall, hstrict⟩
      · refine Or.inl ⟨heq, ?_⟩
        intro d hd
        rcases List.mem_cons.mp hd with rfl | hd
        · exact lt_of_not_ge h
        · exact hall d hd
      · refine Or.inr ⟨c0 :: l1, c, l2, by rw [hsplit]; rfl, heq, hvle, ?_, hstrict⟩
        intro d hd
        rcases List.mem_cons.mp hd with rfl | hd
        · exact le_trans (le_of_lt (lt_of_not_ge h)) hvle
        · exact hall d hd

/-- UCB of the first unvisited child of `treeTie` is plus infinity. -/
theorem ucb_treeTie_one : ucb treeTie (getNode treeTie 1) false = ⊤ := by
  rw [ucb, if_pos (by decide)]

/-- UCB of the second unvisited child of `treeTie` is plus infinity. -/
theorem ucb_treeTie_two : ucb treeTie (getNode treeTie 2) false = ⊤ := by
  rw [ucb, if_pos (by decide)]

/-- Counterexample to claim C5 as stated: on a root whose two children both
have the maximal UCB value (both unvisited, hence plus infinity), the
selection scan returns the second child, not the first-seen maximum — the
`>=` comparison replaces on ties. -/
theorem selectChild_tie_counterexample :
    (getNode treeTie 0).child_nodes.map Prod.snd = [1, 2] ∧
    ucb treeTie (getNode treeTie 1) false = ucb treeTie (getNode treeTie 2) false ∧
    selectChild treeTie (getNode treeTie 0).child_nodes false = some 2 := by
  refine ⟨by decide, by rw [ucb_treeTie_one, ucb_treeTie_two], ?_⟩
  have hch : (getNode treeTie 0).child_nodes = [(1, 1), (2, 2)] := by decide
  rw [selectChild, hch]
  show scanGE _ [1, 2] none ⊥ = some 2
  rw [scanGE, if_pos (by exact bot_le)]
  rw [scanGE, if_pos (by rw [ucb_treeTie_one, ucb_treeTie_two])]
  rfl

/-- Claim C5 (amended) — each selection step computes `ucb` for every child
and moves to a child attaining the maximum UCB value; when several children
attain the maximum it keeps the LAST-seen maximum in scan order (every child
after the selected one has a strictly smaller value). -/
theorem selectChild_picks_last_max {A : Type} (t : Tree A) (children : List (A × Nat))
    (o : Bool) (h : children ≠ []) :
    ∃ l1 c l2, children.map Prod.snd = l1 ++ c :: l2 ∧
      selectChild t children o = some c ∧
      (∀ d ∈ children.map Prod.snd, ucb t (getNode t d) o ≤ ucb t (getNode t c) o) ∧
      ∀ d ∈ l2, ucb t (getNode t d) o < ucb t (getNode t c) o := by
  rcases scanGE_spec (fun cid => ucb t (getNode t cid) o) (children.map Prod.snd) none ⊥ with
    ⟨heq, hall⟩ | ⟨l1, c, l2, hs, heq, hvle, hall, hstrict⟩
  · obtain ⟨p, hp⟩ := List.exists_mem_of_ne_nil children h
    exact absurd (hall p.2 (List.mem_map_of_mem _ hp)) not_lt_bot
  · exact ⟨l1, c, l2, hs, heq, hall, hstrict⟩

/-- Witness for the amended C5 at the concrete chain tree's root children. -/
theorem selectChild_picks_last_max_witness :
    (getNode treeChain 0).child_nodes ≠ [] ∧
    (∃ l1 c l2, (getNode treeChain 0).child_nodes.map Prod.snd = l1 ++ c :: l2 ∧
      selectChild treeChain (getNode treeChain 0).child_nodes false = some c ∧
      (∀ d ∈ (getNode treeChain 0).child_nodes.map Prod.snd,
        ucb treeChain (getNode treeChain d) false ≤ ucb treeChain (getNode treeChain c) false) ∧
      ∀ d ∈ l2, ucb treeChain (getNode treeChain d) false < ucb treeChain (getNode treeChain c) false) :=
  ⟨by decide, selectChild_picks_last_max treeChain (getNode treeChain 0).child_nodes false (by decide)⟩

/-- Win rates are non-negative rationals (so any positive-visit child beats
the initial best rate of -1). -/
theorem winRate_nonneg {A : Type} (n : NodeRec A) : 0 ≤ winRate n := by
  unfold winRate
  positivity

/-- Characterization of the decision scan generalized over the running best:
either no child improves on it and the captured action is returned, or the
result is the FIRST child attaining the maximal win rate among positive-visit
children (strict `>` comparison keeps the first-seen maximum). -/
theorem get_best_go_spec {A : Type} (l : List (A × NodeRec A)) :
    ∀ (ba : Option A) (br : Rat),
      (get_best_go ba br l = ba ∧ ∀ q ∈ l, 0 < q.2.visits → winRate q.2 ≤ br) ∨
      (∃ l1 a n l2, l = l1 ++ (a, n) :: l2 ∧ get_best_go ba br l = some a ∧
        0 < n.visits ∧ br < winRate n ∧
        (∀ q ∈ l, 0 < q.2.visits → winRate q.2 ≤ winRate n) ∧
        ∀ q ∈ l1, 0 < q.2.visits → winRate q.2 < winRate n) := by
  induction l with
  | nil => intro ba br; exact Or.inl ⟨rfl, by simp⟩
  | cons p rest ih =>
    obtain ⟨a0, n0⟩ := p
    intro ba br
    by_cases hv : 0 < n0.visits
    · by_cases hr : br < winRate n0
      · rw [get_best_go, if_pos hv, if_pos (by exact_mod_cast hr)]
        rcases ih (some a0) (winRate n0) with ⟨heq, hall⟩ |
          ⟨l1, a, n, l2, hsplit, heq, hn, hbr, hall, hstrict⟩
        · refine Or.inr ⟨[], a0, n0, rest, rfl, heq, hv, hr, ?_, by simp⟩
          intro q hq hqv
          rcases List.mem_cons.mp hq with rfl | hq
          · exact le_refl _
          · exact hall q hq hqv
        · refine Or.inr ⟨(a0, n0) :: l1, a, n, l2, by rw [hsplit]; rfl, heq, hn,
            lt_trans hr hbr, ?_, ?_⟩
          · intro q hq hqv
            rcases List.mem_cons.mp hq with rfl | hq
            · exact le_of_lt hbr
            · exact hall q hq hqv
          · intro q hq hqv
            rcases List.mem_cons.mp hq with rfl | hq
            · exact hbr
            · exact hstrict q hq hqv
      · rw [get_best_go, if_pos hv, if_neg (by exact_mod_cast hr)]
        rcases ih ba br with ⟨heq, hall⟩ |
          ⟨l1, a, n, l2, hsplit, heq, hn, hbr, hall, hstrict⟩
        · refine Or.inl ⟨heq, ?_⟩
          intro q hq hqv
          rcases List.mem_cons.mp hq with rfl | hq
          · exact le_of_not_lt hr
          · exact hall q hq hqv
        · refine Or.inr ⟨(a0, n0) :: l1, a, n, l2, by rw [hsplit]; rfl, heq, hn, hbr, ?_, ?_⟩
          · intro q hq hqv
            rcases List.mem_cons.mp hq with rfl | hq
            · exact le_trans (le_of_not_lt hr) (le_of_lt hbr)
            · exact hall q hq hqv
          · intro q hq hqv
            rcases List.mem_cons.mp hq with rfl | hq
            · exact lt_of_le_of_lt (le_of_not_lt hr) hbr
            · exact hstrict q hq hqv
    · rw [get_best_go, if_neg hv]
      rcases ih ba br with ⟨heq, hall⟩ |
        ⟨l1, a, n, l2, hsplit, heq, hn, hbr, hall, hstrict⟩
      · refine Or.inl ⟨heq, ?_⟩
        intro q hq hqv
        rcases List.mem_cons.mp hq with rfl | hq
        · exact absurd hqv hv
        · exact hall q hq hqv
      · refine Or.inr ⟨(a0, n0) :: l1, a, n, l2, by rw [hsplit]; rfl, heq, hn, hbr, ?_, ?_⟩
        · intro q hq hqv
          rcases List.mem_cons.mp hq with rfl | hq
          · exact absurd hqv hv
          · exact hall q hq hqv
        · intro q hq hqv
          rcases List.mem_cons.mp hq with rfl | hq
          · exact absurd hqv hv
          · exact hstrict q hq hqv

/-- Claim C7 — the Controller's final choice returns the children-mapping key
of the root child with the highest wins/visits ratio among children with
positive visits, ties resolved by keeping the first-seen maximum in scan
order: every earlier positive-visit child has a strictly smaller ratio. -/
theorem get_best_action_first_max {A : Type} (l : List (A × NodeRec A))
    (h : ∃ p ∈ l, 0 < p.2.visits) :
    ∃ l1 a n l2, l = l1 ++ (a, n) :: l2 ∧ get_best_action l = some a ∧ 0 < n.visits ∧
      (∀ q ∈ l, 0 < q.2.visits → winRate q.2 ≤ winRate n) ∧
      ∀ q ∈ l1, 0 < q.2.visits → winRate q.2 < winRate n := by
  rcases get_best_go_spec l none (-1) with ⟨heq, hall⟩ |
    ⟨l1, a, n, l2, hsplit, heq, hn, hbr, hall, hstrict⟩
  · obtain ⟨p, hp, hpv⟩ := h
    have := hall p hp hpv
    have h0 := winRate_nonneg p.2
    linarith
  · exact ⟨l1, a, n, l2, hsplit, heq, hn, hall, hstrict⟩

/-- Witness for C7 at the concrete children list with rates 0, 1, 1: the
returned key is 2, the first of the two rate-1 children. -/
theorem get_best_action_first_max_witness :
    (∃ p ∈ childrenEg, 0 < p.2.visits) ∧
    (∃ l1 a n l2, childrenEg = l1 ++ (a, n) :: l2 ∧
      get_best_action childrenEg = some a ∧ 0 < n.visits ∧
      (∀ q ∈ childrenEg, 0 < q.2.visits → winRate q.2 ≤ winRate n) ∧
      ∀ q ∈ l1, 0 < q.2.visits → winRate q.2 < winRate n) :=
  ⟨by decide, get_best_action_first_max childrenEg (by decide)⟩

/-- A random choice from a non-empty list succeeds and returns a member. -/
theorem chooseRand_mem {α : Type} (l : List α) (r : Rng) (h : l ≠ []) :
    ∃ a r2, chooseRand l r = (some a, r2) ∧ a ∈ l := by
  have hl : 0 < l.length := List.length_pos.mpr h
  have hlt : (drawNat r).1 % l.length < l.length := Nat.mod_lt _ hl
  exact ⟨l[(drawNat r).1 % l.length], (drawNat r).2,
    by rw [chooseRand, List.getElem?_eq_getElem hlt], List.getElem_mem hlt⟩

/-- Full description of `testaction` under the assumption that non-terminal
states always offer a legal action: whenever the fuel exceeds the remaining
depth budget, the probe returns an integer — minus the final depth if the
probed state is terminal and won, the final depth otherwise — and the final
depth exceeds the starting depth by at most 20. -/
theorem testaction_spec {S A : Type} (eng : Engine S A) (bot : Nat)
    (Hn : ∀ s, eng.is_ended s = false → eng.legal_actions s ≠ []) :
    ∀ (fuel : Nat) (state : S) (action : A) (depth : Nat) (rng : Rng), 20 - depth < fuel →
      ∃ d fs rng2, depth ≤ d ∧ d ≤ depth + 20 ∧ (depth ≤ 20 → d ≤ 20) ∧
        testaction eng bot fuel state action depth rng =
          (.val (if eng.is_ended fs = true ∧ is_winB eng fs bot = true
                 then -(d : Int) else (d : Int)), rng2) := by
  intro fuel
  induction fuel with
  | zero => intro state action depth rng hf; omega
  | succ fuel ih =>
    intro state action depth rng hf
    by_cases hc : eng.is_ended (eng.next_state state action) = true ∨ 19 < depth
    · refine ⟨depth, eng.next_state state action, rng, le_refl _, by omega, by omega, ?_⟩
      rw [testaction, if_pos hc]
      by_cases hw : eng.is_ended (eng.next_state state action) = true ∧
          is_winB eng (eng.next_state state action) bot = true
      · rw [if_pos hw, if_pos hw]
      · rw [if_neg hw, if_neg hw]
    · push_neg at hc
      obtain ⟨hend, hdep⟩ := hc
      have hend2 : eng.is_ended (eng.next_state state action) = false := by
        cases hval : eng.is_ended (eng.next_state state action)
        · rfl
        · exact absurd hval hend
      obtain ⟨a, r2, hcr, hmem⟩ := chooseRand_mem _ rng (Hn _ hend2)
      obtain ⟨d, fs, rng3, hd1, hd2, hd3, heq⟩ :=
        ih (eng.next_state state action) a (depth + 1) r2 (by omega)
      have hd4 : d ≤ 20 := hd3 (by omega)
      refine ⟨d, fs, rng3, by omega, by omega, by omega, ?_⟩
      rw [testaction, if_neg (by push_neg; exact ⟨hend, hdep⟩), hcr]
      exact heq

/-- Claim C8 — `testaction` terminates on every input (whatever random draws
occur): for any engine whose non-terminal states always offer a legal action
(as any bounded-ply game must), with fuel above the hard cap the probe returns
a value, the final depth never exceeds the starting depth by more than 20
(starting from 0 it stays within 20), and the returned integer is minus the
final depth exactly on the terminal-and-won branch, the final depth
otherwise. -/
theorem testaction_terminates_with_cap {S A : Type} (eng : Engine S A) (bot : Nat)
    (Hn : ∀ s, eng.is_ended s = false → eng.legal_actions s ≠ [])
    (fuel : Nat) (hf : 20 < fuel) (state : S) (action : A) (depth : Nat) (rng : Rng) :
    ∃ d fs rng2, depth ≤ d ∧ d ≤ depth + 20 ∧ (depth = 0 → d ≤ 20) ∧
      testaction eng bot fuel state action depth rng =
        (.val (if eng.is_ended fs = true ∧ is_winB eng fs bot = true
               then -(d : Int) else (d : Int)), rng2) := by
  obtain ⟨d, fs, rng2, h1, h2, h3, h4⟩ :=
    testaction_spec eng bot Hn fuel state action depth rng (by omega)
  exact ⟨d, fs, rng2, h1, h2, fun h => h3 (by omega), h4⟩

/-- The countdown engine has no stuck states: every non-terminal state offers
a legal action. -/
theorem egCountdown_nonstuck :
    ∀ s, egCountdown.is_ended s = false → egCountdown.legal_actions s ≠ [] := by
  intro s hs
  cases s with
  | zero => simp [egCountdown] at hs
  | succ k => simp [egCountdown]

/-- The countdown engine's legal actions are empty exactly on terminal
states. -/
theorem egCountdown_iff :
    ∀ s, egCountdown.legal_actions s = [] ↔ egCountdown.is_ended s = true := by
  intro s
  cases s with
  | zero => simp [egCountdown]
  | succ k => simp [egCountdown]

/-- Witness for C8 on the countdown engine, probing action 4 from state 5 at
depth 0 with fuel 21. -/
theorem testaction_terminates_with_cap_witness :
    (∀ s, egCountdown.is_ended s = false → egCountdown.legal_actions s ≠ []) ∧ 20 < 21 ∧
    (∃ (d : Nat) (fs : Nat) (rng2 : Rng), 0 ≤ d ∧ d ≤ 0 + 20 ∧ (0 = 0 → d ≤ 20) ∧
      testaction egCountdown 1 21 5 4 0 rngZero =
        (.val (if egCountdown.is_ended fs = true ∧ is_winB egCountdown fs 1 = true
               then -(d : Int) else (d : Int)), rng2)) :=
  ⟨egCountdown_nonstuck, by decide,
    testaction_terminates_with_cap egCountdown 1 egCountdown_nonstuck 21 (by decide) 5 4 0 rngZero⟩

/-- Under the no-stuck-state assumption, scoring the candidate actions always
produces a value list whose keys are exactly the candidates. -/
theorem testVals_vals {S A : Type} (eng : Engine S A) (bot : Nat) (state : S)
    (Hn : ∀ s, eng.is_ended s = false → eng.legal_actions s ≠ []) :
    ∀ (acts : List A) (rng : Rng),
      ∃ l rng2, testVals eng bot state acts rng = (.vals l, rng2) ∧
        l.map Prod.fst = acts := by
  intro acts
  induction acts with
  | nil => intro rng; exact ⟨[], rng, rfl, rfl⟩
  | cons a rest ih =>
    intro rng
    obtain ⟨d, fs, rng2, _, _, _, heq⟩ :=
      testaction_spec eng bot Hn 21 state a 0 rng (by omega)
    obtain ⟨l, rng3, heq2, hmap⟩ := ih rng2
    refine ⟨(a, if eng.is_ended fs = true ∧ is_winB eng fs bot = true
               then -(d : Int) else (d : Int)) :: l, rng3, ?_, by simp [hmap]⟩
    rw [testVals, heq]
    simp only [heq2]

/-- The running minimum of the key scan is drawn from the scanned keys. -/
theorem argminGo_mem {A : Type} :
    ∀ (l : List (A × Int)) (a : A) (z : Int), argminGo a z l ∈ a :: l.map Prod.fst := by
  intro l
  induction l with
  | nil => intro a z; simp [argminGo]
  | cons p rest ih =>
    obtain ⟨b, w⟩ := p
    intro a z
    rw [argminGo]
    by_cases h : w < z
    · rw [if_pos h]
      exact List.mem_cons_of_mem a (ih b w)
    · rw [if_neg h]
      rcases List.mem_cons.mp (ih a z) with he | hm
      · rw [he]; exact List.mem_cons_self _ _
      · exact List.mem_cons_of_mem a (List.mem_cons_of_mem b hm)

/-- Python `min` on a non-empty scored list returns one of the scanned keys. -/
theorem argminFirst_mem {A : Type} (l : List (A × Int)) (h : l ≠ []) :
    ∃ a, argminFirst l = some a ∧ a ∈ l.map Prod.fst := by
  match l with
  | (a, z) :: rest => exact ⟨argminGo a z rest, rfl, argminGo_mem rest a z⟩

/-- Claim C10 — for an engine whose legal actions are empty exactly on
terminal states, `rollout` never draws a random choice from an empty action
sequence, whatever the fuel, state and random stream: the immediate-win scan
has already returned for any action whose successor is terminal, so the state
reached by the chosen action is non-terminal and the unconditional second
random half-move (and every choice inside `testaction`) has at least one
legal action to pick from. -/
theorem rollout_never_empty_draw {S A : Type} (eng : Engine S A) (bot : Nat)
    (Hiff : ∀ s, eng.legal_actions s = [] ↔ eng.is_ended s = true) :
    ∀ (fuel : Nat) (state : S) (rng : Rng),
      (rolloutGo eng bot fuel state rng).1 ≠ RollR.emptyDraw := by
  have Hn : ∀ s, eng.is_ended s = false → eng.legal_actions s ≠ [] := by
    intro s hs hemp
    rw [(Hiff s).mp hemp] at hs
    cases hs
  intro fuel
  induction fuel with
  | zero => intro state rng; simp [rolloutGo]
  | succ fuel ih =>
    intro state rng
    simp only [rolloutGo]
    by_cases h1 : eng.is_ended state = true
    · rw [if_pos h1]; simp
    · rw [if_neg h1]
      by_cases h2 : (eng.legal_actions state).length = 0
      · rw [if_pos h2]; simp
      · rw [if_neg h2]
        have hne : eng.legal_actions state ≠ [] := by
          intro hh; rw [hh] at h2; simp at h2
        have h1f : eng.is_ended state = false := by
          cases hv : eng.is_ended state
          · rfl
          · exact absurd hv h1
        cases hfind : (eng.legal_actions state).find?
            (fun a => eng.is_ended (eng.next_state state a)) with
        | some a => simp
        | none =>
          have hterm : ∀ a ∈ eng.legal_actions state,
              eng.is_ended (eng.next_state state a) = false := by
            intro a ha
            simpa using List.find?_eq_none.mp hfind a ha
          cases hrb : (randBool08 rng).1 with
          | true =>
            rw [if_pos rfl]
            obtain ⟨sel, r2, hcr, hsel⟩ := chooseRand_mem _ (randBool08 rng).2 hne
            obtain ⟨a2, r3, hcr2, _⟩ :=
              chooseRand_mem _ r2 (Hn _ (hterm sel hsel))
            simp only [hcr, hcr2]
            exact ih _ _
          | false =>
            rw [if_neg Bool.false_ne_true]
            obtain ⟨l, r2, htv, hmap⟩ :=
              testVals_vals eng bot state Hn (eng.legal_actions state) (randBool08 rng).2
            have hlne : l ≠ [] := by
              intro hl; rw [hl] at hmap; exact hne (by simpa using hmap.symm)
            obtain ⟨sel, hargmin, hselmem⟩ := argminFirst_mem l hlne
            rw [hmap] at hselmem
            obtain ⟨a2, r3, hcr2, _⟩ := chooseRand_mem _ r2 (Hn _ (hterm sel hselmem))
            simp only [htv, hargmin, hcr2]
            exact ih _ _

/-- Witness for C10 on the countdown engine from state 3 with fuel 5. -/
theorem rollout_never_empty_draw_witness :
    (∀ s, egCountdown.legal_actions s = [] ↔ egCountdown.is_ended s = true) ∧
    (rolloutGo egCountdown 1 5 3 rngZero).1 ≠ RollR.emptyDraw :=
  ⟨egCountdown_iff, rollout_never_empty_draw egCountdown 1 egCountdown_iff 5 3 rngZero⟩

/-- Reading an updated slot in range yields the new node. -/
theorem getNode_set_eq {A : Type} (t : Tree A) (i : Nat) (n : NodeRec A)
    (h : i < t.length) : getNode (setNode t i n) i = n := by
  rw [getNode, setNode, List.getD_eq_getElem?_getD, List.getElem?_set_self]
  · simp
  · exact h

/-- Reading any other slot of an updated store is unchanged. -/
theorem getNode_set_ne {A : Type} (t : Tree A) (i j : Nat) (n : NodeRec A)
    (h : j ≠ i) : getNode (setNode t i n) j = getNode t j := by
  rw [getNode, setNode, List.getD_eq_getElem?_getD,
    List.getElem?_set_ne (fun hh => h hh.symm), getNode, List.getD_eq_getElem?_getD]

/-- Reading an in-range slot is unaffected by appending. -/
theorem getNode_append_lt {A : Type} (t l : Tree A) (i : Nat) (h : i < t.length) :
    getNode (t ++ l) i = getNode t i := by
  rw [getNode, getNode, List.getD_append _ _ _ _ h]

/-- Out-of-range reads give the default node. -/
theorem getNode_default {A : Type} (t : Tree A) (i : Nat) (h : t.length ≤ i) :
    getNode t i = default :=
  List.getD_eq_default _ _ h

/-- In-range reads are members of the store. -/
theorem getNode_mem {A : Type} (t : Tree A) (i : Nat) (h : i < t.length) :
    getNode t i ∈ t := by
  rw [getNode, List.getD_eq_getElem t default h]
  exact List.getElem_mem h

/-- Every slot of a store satisfying the statistics invariant satisfies
`wins <= visits` (out-of-range slots are the zeroed default). -/
theorem statsInv_getNode {A : Type} {t : Tree A} (h : statsInv t) (i : Nat) :
    (getNode t i).wins ≤ (getNode t i).visits := by
  by_cases hi : i < t.length
  · exact h _ (getNode_mem t i hi)
  · rw [getNode_default t i (by omega)]
    exact le_refl _

/-- Updating a slot with a `wins <= visits` node preserves the statistics
invariant. -/
theorem statsInv_set {A : Type} {t : Tree A} (h : statsInv t) {n : NodeRec A}
    (hn : n.wins ≤ n.visits) (i : Nat) : statsInv (setNode t i n) := by
  intro m hm
  rcases List.mem_or_eq_of_mem_set hm with hm2 | rfl
  · exact h m hm2
  · exact hn

/-- Appending a `wins <= visits` node preserves the statistics invariant. -/
theorem statsInv_append {A : Type} {t : Tree A} (h : statsInv t) {n : NodeRec A}
    (hn : n.wins ≤ n.visits) : statsInv (t ++ [n]) := by
  intro m hm
  rcases List.mem_append.mp hm with hm2 | hm2
  · exact h m hm2
  · rw [List.mem_singleton.mp hm2]
    exact hn

/-- `expand_leaf` preserves the statistics invariant: the touched parent keeps
its statistics and the new child is zeroed. -/
theorem statsInv_expand {S A : Type} (eng : Engine S A) (t : Tree A) (i : Nat) (s : S)
    (h : statsInv t) : statsInv (expand_leaf eng t i s).1 := by
  rw [expand_leaf]
  cases huntried : (getNode t i).untried_actions with
  | nil => exact h
  | cons action rest =>
    exact statsInv_append
      (statsInv_set h (by exact statsInv_getNode h i) i) (by rw [createNode])

/-- The backpropagation walk preserves the statistics invariant: each bump
adds one visit and at most one win. -/
theorem statsInv_backpropGo {A : Type} :
    ∀ (fuel : Nat) (t : Tree A) (i : Nat) (won : Bool),
      statsInv t → statsInv (backpropGo fuel t i won) := by
  intro fuel
  induction fuel with
  | zero => intro t i won h; exact h
  | succ fuel ih =>
    intro t i won h
    rw [backpropGo]
    have hb : (bump (getNode t i) won).wins ≤ (bump (getNode t i) won).visits := by
      have := statsInv_getNode h i
      rw [bump]
      cases won <;> simp <;> omega
    cases hp : (getNode t i).parent with
    | none => exact statsInv_set h hb i
    | some p => exact ih _ _ _ (statsInv_set h hb i)

/-- `backpropagate` preserves the statistics invariant. -/
theorem statsInv_backpropagate {A : Type} (t : Tree A) (i : Nat) (won : Bool)
    (h : statsInv t) : statsInv (backpropagate t i won) :=
  statsInv_backpropGo (i + 1) t i won h

/-- The backpropagation walk changes only statistics: length, parent pointers,
actions, children and untried lists of every slot are untouched. -/
theorem backpropGo_preserves {A : Type} :
    ∀ (fuel : Nat) (t : Tree A) (i : Nat) (won : Bool),
      (backpropGo fuel t i won).length = t.length ∧
      ∀ j, (getNode (backpropGo fuel t i won) j).parent = (getNode t j).parent ∧
        (getNode (backpropGo fuel t i won) j).parent_action = (getNode t j).parent_action ∧
        (getNode (backpropGo fuel t i won) j).child_nodes = (getNode t j).child_nodes ∧
        (getNode (backpropGo fuel t i won) j).untried_actions = (getNode t j).untried_actions := by
  intro fuel
  induction fuel with
  | zero => intro t i won; exact ⟨rfl, fun j => ⟨rfl, rfl, rfl, rfl⟩⟩
  | succ fuel ih =>
    intro t i won
    rw [backpropGo]
    have hset : ∀ j, getNode (setNode t i (bump (getNode t i) won)) j = getNode t j ∨
        getNode (setNode t i (bump (getNode t i) won)) j = bump (getNode t j) won := by
      intro j
      by_cases hj : j = i
      · subst hj
        by_cases hr : j < t.length
        · exact Or.inr (by rw [getNode_set_eq t j _ hr])
        · exact Or.inl (by rw [setNode, List.set_eq_of_length_le (by omega)])
      · exact Or.inl (getNode_set_ne t i j _ hj)
    have hfields : ∀ j,
        (getNode (setNode t i (bump (getNode t i) won)) j).parent = (getNode t j).parent ∧
        (getNode (setNode t i (bump (getNode t i) won)) j).parent_action =
          (getNode t j).parent_action ∧
        (getNode (setNode t i (bump (getNode t i) won)) j).child_nodes =
          (getNode t j).child_nodes ∧
        (getNode (setNode t i (bump (getNode t i) won)) j).untried_actions =
          (getNode t j).untried_actions := by
      intro j
      rcases hset j with he | he <;> rw [he] <;> exact ⟨rfl, rfl, rfl, rfl⟩
    have hlen : (setNode t i (bump (getNode t i) won)).length = t.length :=
      List.length_set t i _
    cases hp : (getNode t i).parent with
    | none => exact ⟨hlen, hfields⟩
    | some p =>
      obtain ⟨ihlen, ihf⟩ := ih (setNode t i (bump (getNode t i) won)) p won
      refine ⟨by rw [ihlen, hlen], fun j => ?_⟩
      obtain ⟨f1, f2, f3, f4⟩ := ihf j
      obtain ⟨g1, g2, g3, g4⟩ := hfields j
      exact ⟨by rw [f1, g1], by rw [f2, g2], by rw [f3, g3], by rw [f4, g4]⟩

/-- The root invariant holds for the tree `think` starts from. -/
theorem rootInv_init {A : Type} (legal0 : List A) :
    RootInv legal0 [createNode none none legal0] := by
  refine ⟨by simp, ?_, ?_⟩
  · intro a ha
    simpa [getNode, createNode] using ha
  · intro p hp
    simp [getNode, createNode] at hp

/-- `expand_leaf` preserves the root invariant: expanding the root moves the
head untried action (a legal root action) into the children mapping; expanding
any other node leaves the root's bookkeeping untouched. -/
theorem rootInv_expand {S A : Type} (eng : Engine S A) {legal0 : List A} {t : Tree A}
    (h : RootInv legal0 t) (i : Nat) (s : S) :
    RootInv legal0 (expand_leaf eng t i s).1 := by
  obtain ⟨hlen, hunt, hch⟩ := h
  rw [expand_leaf]
  cases huntried : (getNode t i).untried_actions with
  | nil => exact ⟨hlen, hunt, hch⟩
  | cons action rest =>
    have hlen2 : ∀ nd : NodeRec A, (setNode t i nd).length = t.length :=
      fun nd => List.length_set t i nd
    refine ⟨by rw [List.length_append, hlen2]; omega, ?_, ?_⟩ <;>
      rw [getNode_append_lt _ _ 0 (by rw [hlen2]; omega)]
    · by_cases hi : (0 : Nat) = i
      · subst hi
        rw [getNode_set_eq t 0 _ (by omega)]
        intro a ha
        exact hunt a (by rw [huntried]; exact List.mem_cons_of_mem action ha)
      · rw [getNode_set_ne t i 0 _ hi]
        exact hunt
    · by_cases hi : (0 : Nat) = i
      · subst hi
        rw [getNode_set_eq t 0 _ (by omega)]
        intro p hp
        rcases List.mem_append.mp hp with hp2 | hp2
        · exact hch p hp2
        · rw [List.mem_singleton.mp hp2]
          exact hunt action (by rw [huntried]; exact List.mem_cons_self action rest)
      · rw [getNode_set_ne t i 0 _ hi]
        exact hch

/-- `backpropagate` preserves the root invariant (it changes statistics
only). -/
theorem rootInv_backpropagate {A : Type} {legal0 : List A} {t : Tree A}
    (h : RootInv legal0 t) (i : Nat) (won : Bool) :
    RootInv legal0 (backpropagate t i won) := by
  obtain ⟨hlen, hunt, hch⟩ := h
  obtain ⟨blen, bf⟩ := backpropGo_preserves (i + 1) t i won
  obtain ⟨_, _, f3, f4⟩ := bf 0
  exact ⟨by rw [backpropagate, blen]; exact hlen, by rw [backpropagate, f4]; exact hunt,
    by rw [backpropagate, f3]; exact hch⟩

/-- A successful `think` iteration produces the tree obtained by expanding
the selected node and backpropagating from the node `expand_leaf` returned. -/
theorem thinkIter_ok {S A : Type} (eng : Engine S A) (bot rf : Nat) (s0 : S)
    (t : Tree A) (rng : Rng) (t3 : Tree A) (rng3 : Rng)
    (h : thinkIter eng bot rf s0 t rng = .ok (t3, rng3)) :
    ∃ i s w, t3 = backpropagate (expand_leaf eng t i s).1 (expand_leaf eng t i s).2.1 w := by
  simp only [thinkIter] at h
  cases hro : rolloutGo eng bot rf
      (expand_leaf eng t (traverse_nodes eng t 0 s0 bot).1
        (traverse_nodes eng t 0 s0 bot).2).2.2 rng with
  | mk r rng2 =>
    cases r with
    | ok s3 =>
      simp only [hro] at h
      cases hw : is_win eng s3 bot with
      | none => simp only [hw] at h; exact absurd h (by simp)
      | some w =>
        simp only [hw, Except.ok.injEq, Prod.mk.injEq] at h
        exact ⟨(traverse_nodes eng t 0 s0 bot).1, (traverse_nodes eng t 0 s0 bot).2, w,
          h.1.symm⟩
    | emptyDraw => simp only [hro] at h; exact absurd h (by simp)
    | fuelOut => simp only [hro] at h; exact absurd h (by simp)

/-- Any tree property preserved by `expand_leaf` and `backpropagate` is an
invariant of the Controller loop, and on success the returned option is the
decision scan of the final tree's root children. -/
theorem thinkGo_preserves {S A : Type} (eng : Engine S A) (bot rf : Nat) (s0 : S)
    (P : Tree A → Prop)
    (hexp : ∀ (t : Tree A) (i : Nat) (s : S), P t → P (expand_leaf eng t i s).1)
    (hbp : ∀ (t : Tree A) (i : Nat) (w : Bool), P t → P (backpropagate t i w)) :
    ∀ (k : Nat) (t : Tree A) (rng : Rng) (t2 : Tree A) (res : Option A),
      P t → thinkGo eng bot rf s0 k t rng = .ok (t2, res) →
      P t2 ∧ res = get_best_action (rootChildren t2) := by
  intro k
  induction k with
  | zero =>
    intro t rng t2 res hP heq
    rw [thinkGo] at heq
    simp only [Except.ok.injEq, Prod.mk.injEq] at heq
    obtain ⟨rfl, rfl⟩ := heq
    exact ⟨hP, rfl⟩
  | succ k ih =>
    intro t rng t2 res hP heq
    rw [thinkGo] at heq
    cases hit : thinkIter eng bot rf s0 t rng with
    | error e => rw [hit] at heq; exact absurd heq (by simp)
    | ok pr =>
      rw [hit] at heq
      obtain ⟨i, s, w, hform⟩ := thinkIter_ok eng bot rf s0 t rng pr.1 pr.2 (by rw [hit])
      exact ih pr.1 pr.2 t2 res (by rw [hform]; exact hbp _ _ _ (hexp _ _ _ hP)) heq

/-- Any key returned by the decision scan is either a key of the scanned list
or the initially captured action. -/
theorem get_best_go_key {A : Type} :
    ∀ (l : List (A × NodeRec A)) (ba : Option A) (br : Rat) (x : A),
      get_best_go ba br l = some x → (∃ n, (x, n) ∈ l) ∨ ba = some x := by
  intro l
  induction l with
  | nil => intro ba br x h; exact Or.inr h
  | cons p rest ih =>
    obtain ⟨k, n⟩ := p
    intro ba br x h
    rw [get_best_go] at h
    by_cases hv : 0 < n.visits
    · rw [if_pos hv] at h
      by_cases hr : br < (n.wins : Rat) / (n.visits : Rat)
      · rw [if_pos hr] at h
        rcases ih (some k) _ x h with ⟨n2, hn2⟩ | hba
        · exact Or.inl ⟨n2, List.mem_cons_of_mem _ hn2⟩
        · exact Or.inl ⟨n, by rw [← Option.some.inj hba]; exact List.mem_cons_self _ _⟩
      · rw [if_neg hr] at h
        rcases ih ba br x h with ⟨n2, hn2⟩ | hba
        · exact Or.inl ⟨n2, List.mem_cons_of_mem _ hn2⟩
        · exact Or.inr hba
    · rw [if_neg hv] at h
      rcases ih ba br x h with ⟨n2, hn2⟩ | hba
      · exact Or.inl ⟨n2, List.mem_cons_of_mem _ hn2⟩
      · exact Or.inr hba

/-- When every scanned child has zero visits, the decision scan returns the
initially captured action unchanged. -/
theorem get_best_go_zero {A : Type} :
    ∀ (l : List (A × NodeRec A)) (ba : Option A) (br : Rat),
      (∀ p ∈ l, p.2.visits = 0) → get_best_go ba br l = ba := by
  intro l
  induction l with
  | nil => intro ba br _; rfl
  | cons p rest ih =>
    obtain ⟨k, n⟩ := p
    intro ba br hz
    rw [get_best_go, if_neg (by rw [hz (k, n) (List.mem_cons_self _ _)]; omega)]
    exact ih ba br (fun q hq => hz q (List.mem_cons_of_mem _ hq))

/-- Claim C3 — decision validity: whenever `think` returns an action, that
action is one of the legal actions of the searched state (the root's children
keys all come from the root's untried list, which was initialised with the
state's legal actions). -/
theorem think_returns_legal_action {S A : Type} (eng : Engine S A)
    (budget rolloutFuel : Nat) (s0 : S) (rng : Rng) (a : A)
    (h1 : eng.is_ended s0 = false) (h2 : eng.legal_actions s0 ≠ [])
    (h3 : think eng budget rolloutFuel s0 rng = .ok (some a)) :
    a ∈ eng.legal_actions s0 := by
  rw [think] at h3
  cases hc : thinkCore eng budget rolloutFuel s0 rng with
  | error e => rw [hc] at h3; exact absurd h3 (by simp [Except.map])
  | ok pr =>
    obtain ⟨t, res⟩ := pr
    rw [hc] at h3
    simp only [Except.map, Except.ok.injEq] at h3
    subst h3
    rw [thinkCore] at hc
    obtain ⟨hinv, hres⟩ := thinkGo_preserves eng (eng.current_player s0) rolloutFuel s0
      (RootInv (eng.legal_actions s0)) (fun t i s h => rootInv_expand eng h i s)
      (fun t i w h => rootInv_backpropagate h i w) budget _ rng t (some a)
      (rootInv_init _) hc
    rcases get_best_go_key (rootChildren t) none (-1) a hres.symm with ⟨n, hn⟩ | hba
    · obtain ⟨q, hq, hqa⟩ := List.mem_map.mp hn
      have := hinv.2.2 q hq
      rw [show q.1 = a from congrArg Prod.fst hqa] at this
      exact this
    · exact absurd hba (by simp)

/-- Claim C4 (amended) — when after the iteration budget no root child has
positive visits, the Controller silently returns Python's `None` (the
initialized `best_action`): no distinct failure is reported. -/
theorem think_silent_none {S A : Type} (eng : Engine S A) (budget rolloutFuel : Nat)
    (s0 : S) (rng : Rng) (t : Tree A) (res : Option A)
    (hok : thinkCore eng budget rolloutFuel s0 rng = .ok (t, res))
    (hzero : ∀ p ∈ rootChildren t, p.2.visits = 0) : res = none := by
  rw [thinkCore] at hok
  obtain ⟨_, hres⟩ := thinkGo_preserves eng (eng.current_player s0) rolloutFuel s0
    (RootInv (eng.legal_actions s0)) (fun t i s h => rootInv_expand eng h i s)
    (fun t i w h => rootInv_backpropagate h i w) budget _ rng t res
    (rootInv_init _) hok
  rw [hres, get_best_action]
  exact get_best_go_zero (rootChildren t) none (-1) hzero

/-- Counterexample to claim C4 as stated: with a zero iteration budget (one of
the two situations the claim itself names) no root child has positive visits,
and the Controller returns `Except.ok none` — Python's silent `None` — rather
than any distinct failure value. -/
theorem think_silent_none_counterexample :
    thinkCore egTwo 0 1 0 rngZero = .ok ([createNode none none [7]], (none : Option Nat)) ∧
    think egTwo 0 1 0 rngZero = .ok (none : Option Nat) ∧
    (∀ p ∈ rootChildren [createNode (A := Nat) none none [7]], p.2.visits = 0) := by
  exact ⟨rfl, rfl, by decide⟩

/-- Witness for the amended C4 on the zero-budget run. -/
theorem think_silent_none_witness :
    thinkCore egTwo 0 1 0 rngZero = .ok ([createNode none none [7]], (none : Option Nat)) ∧
    (none : Option Nat) = none :=
  ⟨rfl, think_silent_none egTwo 0 1 0 rngZero [createNode none none [7]] none rfl (by decide)⟩

/-- Claim C9 — the statistics invariant `0 <= wins <= visits` holds at node
creation (root and children alike carry zeroed statistics), is preserved by
`expand_leaf` and by every `backpropagate` call, and consequently holds for
every node of the tree a successful `think` run finishes with. -/
theorem wins_le_visits_invariant {S A : Type} (eng : Engine S A) :
    (∀ legal0 : List A, statsInv [createNode none none legal0]) ∧
    (∀ (t : Tree A) (i : Nat) (s : S), statsInv t → statsInv (expand_leaf eng t i s).1) ∧
    (∀ (t : Tree A) (i : Nat) (w : Bool), statsInv t → statsInv (backpropagate t i w)) ∧
    (∀ (budget rolloutFuel : Nat) (s0 : S) (rng : Rng) (t : Tree A) (res : Option A),
      thinkCore eng budget rolloutFuel s0 rng = .ok (t, res) → statsInv t) := by
  refine ⟨?_, statsInv_expand eng, statsInv_backpropagate, ?_⟩
  · intro legal0 n hn
    rw [List.mem_singleton.mp hn, createNode]
  · intro budget rolloutFuel s0 rng t res hok
    rw [thinkCore] at hok
    exact (thinkGo_preserves eng (eng.current_player s0) rolloutFuel s0 statsInv
      (statsInv_expand eng) statsInv_backpropagate budget _ rng t res
      (fun n hn => by rw [List.mem_singleton.mp hn, createNode]) hok).1

/-- Witness for C9: the invariant holds on the concrete chain tree and is
preserved by a concrete backpropagation from its leaf. -/
theorem wins_le_visits_invariant_witness :
    statsInv treeChain ∧ statsInv (backpropagate treeChain 1 true) :=
  ⟨by unfold statsInv; decide,
    (wins_le_visits_invariant (S := Nat) egTwo).2.2.1 treeChain 1 true
      (by unfold statsInv; decide)⟩


/-- Concrete run of `think` on the two-state engine with budget 2: the first
iteration expands the root's single action, the second traverses to the child
(now best by UCB) and backpropagates through it, so the decision scan returns
action 7. -/
theorem egTwo_think_run : think egTwo 2 1 0 rngZero = .ok (some 7) := by
  have h1 : thinkIter egTwo 1 1 0 [createNode none none [7]] rngZero =
      .ok ([⟨none, none, [(7, 1)], [], 1, 1⟩, ⟨some 0, some 7, [], [], 0, 0⟩], rngZero) := by
    rfl
  have hsel : selectChild [⟨none, none, [(7, 1)], [], 1, 1⟩, ⟨some 0, some 7, [], [], 0, 0⟩]
      (getNode [⟨none, none, [(7, 1)], [], 1, 1⟩, ⟨some 0, some 7, [], [], 0, 0⟩] 0).child_nodes
      (!(egTwo.current_player 0 == 1)) = some 1 := by
    show scanGE (fun cid => ucb [⟨none, none, [(7, 1)], [], 1, 1⟩,
      ⟨some 0, some 7, [], [], 0, 0⟩] (getNode [⟨none, none, [(7, 1)], [], 1, 1⟩,
      ⟨some 0, some 7, [], [], 0, 0⟩] cid) false) [1] none ⊥ = some 1
    rw [scanGE, if_pos (by exact bot_le)]
    rfl
  have htrav : traverse_nodes egTwo [⟨none, none, [(7, 1)], [], 1, 1⟩,
      ⟨some 0, some 7, [], [], 0, 0⟩] 0 0 1 = (1, 1) := by
    rw [traverse_nodes]
    show traverseGo egTwo [⟨none, none, [(7, 1)], [], 1, 1⟩,
      ⟨some 0, some 7, [], [], 0, 0⟩] 1 3 0 0 = (1, 1)
    simp only [traverseGo]
    rw [if_pos (by decide)]
    rw [hsel]
    rfl
  have h2 : thinkIter egTwo 1 1 0 [⟨none, none, [(7, 1)], [], 1, 1⟩,
      ⟨some 0, some 7, [], [], 0, 0⟩] rngZero =
      .ok ([⟨none, none, [(7, 1)], [], 2, 2⟩, ⟨some 0, some 7, [], [], 1, 1⟩], rngZero) := by
    simp only [thinkIter]
    rw [htrav]
    rfl
  rw [think, thinkCore]
  show Except.map Prod.snd (thinkGo egTwo 1 1 0 2 [createNode none none [7]] rngZero) =
    .ok (some 7)
  rw [thinkGo, h1]
  show Except.map Prod.snd (thinkGo egTwo 1 1 0 1 [⟨none, none, [(7, 1)], [], 1, 1⟩,
    ⟨some 0, some 7, [], [], 0, 0⟩] rngZero) = .ok (some 7)
  rw [thinkGo, h2]
  show Except.map Prod.snd (thinkGo egTwo 1 1 0 0 [⟨none, none, [(7, 1)], [], 2, 2⟩,
    ⟨some 0, some 7, [], [], 1, 1⟩] rngZero) = .ok (some 7)
  rw [thinkGo]
  have hbest : get_best_action (rootChildren [⟨none, none, [(7, 1)], [], 2, 2⟩,
      ⟨some 0, some 7, [], [], 1, 1⟩]) = some 7 := by
    show get_best_go none (-1) [(7, ⟨some 0, some 7, [], [], 1, 1⟩)] = some 7
    simp only [get_best_go]
    rw [if_pos (by decide), if_pos (by norm_num)]
  rw [hbest]
  rfl


/-- Witness for C3: on the two-state engine with budget 2, `think` returns
action 7, which is legal at state 0. -/
theorem think_returns_legal_action_witness :
    egTwo.is_ended 0 = false ∧ egTwo.legal_actions 0 ≠ [] ∧
    think egTwo 2 1 0 rngZero = .ok (some 7) ∧ 7 ∈ egTwo.legal_actions 0 :=
  ⟨rfl, by decide, egTwo_think_run,
    think_returns_legal_action egTwo 2 1 0 rngZero 7 rfl (by decide) egTwo_think_run⟩

end MCTS
